import Mathlib

/-!  Verification of the core logic of the zoomtube client:
the icon-feedback bucketing algorithm (`parseFeedback` in
src/main/webapp/feedback/load-icon-feedback.js) and the incremental
comment threading algorithm (`processNewComments` in DiscussionManager).

JavaScript numbers that hold millisecond timestamps are modelled as `Int`;
the `type` field of a feedback record is modelled as `Option String`
(`none` models an absent field, which compares unequal to every string).
The mutable comment objects, which form parent/replies reference cycles,
are modelled as a heap keyed by comment id: object references become ids,
and in-place mutation becomes an update of the heap entry.  A run that
would throw a TypeError in JavaScript (dereferencing `undefined`) is
modelled as `Option.none`.  -/

/-! ## Icon feedback: data model -/

/-- One icon-feedback record as delivered by the server:
a millisecond timestamp and a `type` field
(absent fields are modelled as `none`). -/
structure IconFeedback where
  timestampMs : Int
  type : Option String
deriving DecidableEq

/-- The four per-interval counters accumulated by the inner loop of
`parseFeedback`. -/
structure BucketCounts where
  good : Nat
  bad : Nat
  tooFast : Nat
  tooSlow : Nat
deriving DecidableEq

/-- Modelled from the spec: parsed-icon-feedback.js is not among the
sources; the spec describes a ParsedIconFeedback object as four parallel
count sequences plus one sequence of interval labels (in seconds), each
`appendX` method appending one element to the corresponding sequence. -/
structure ParsedIconFeedback where
  intervals : List Int
  goodCounts : List Nat
  badCounts : List Nat
  tooFastCounts : List Nat
  tooSlowCounts : List Nat
deriving DecidableEq

/-- `LoadIconFeedback.#INCREMENT_INTERVAL` : the fixed bucket width in
milliseconds. -/
def INCREMENT_INTERVAL : Int := 10000

/-- The classification chain in the body of the inner loop of
`parseFeedback`: `GOOD`, `BAD` and `TOO_FAST` each increment their own
counter, and everything else falls into the `tooSlow` counter. -/
def classify (counts : BucketCounts) (c : IconFeedback) : BucketCounts :=
  if c.type = some "GOOD" then
    ⟨counts.good + 1, counts.bad, counts.tooFast, counts.tooSlow⟩
  else if c.type = some "BAD" then
    ⟨counts.good, counts.bad + 1, counts.tooFast, counts.tooSlow⟩
  else if c.type = some "TOO_FAST" then
    ⟨counts.good, counts.bad, counts.tooFast + 1, counts.tooSlow⟩
  else
    ⟨counts.good, counts.bad, counts.tooFast, counts.tooSlow + 1⟩

/-- The inner `while` loop of `parseFeedback`: starting from the counter
state `acc`, consume every leading event whose `timestampMs` is strictly
below `interval`, classifying each one, and return the final counters
together with the unconsumed remainder of the list. -/
def innerLoopAux (interval : Int) : BucketCounts → List IconFeedback →
    BucketCounts × List IconFeedback
  | acc, [] => (acc, [])
  | acc, c :: rest =>
    if c.timestampMs < interval then innerLoopAux interval (classify acc c) rest
    else (acc, c :: rest)

/-- The outer `while` loop of `parseFeedback`, with an explicit iteration
budget `fuel`.  Each iteration runs the inner loop against the current
upper boundary `interval`, appends the four counters and the boundary
converted to seconds to the five output sequences, and advances the
boundary by `INCREMENT_INTERVAL`.  The loop exits when the event list is
exhausted; a run that would need more than `fuel` iterations yields
`none`. -/
def parseLoop (interval : Int) : Nat → List IconFeedback →
    Option ParsedIconFeedback
  | _, [] => some ⟨[], [], [], [], []⟩
  | 0, _ :: _ => none
  | fuel + 1, c :: rest =>
    match innerLoopAux interval ⟨0, 0, 0, 0⟩ (c :: rest) with
    | (b, r) =>
      match parseLoop (interval + INCREMENT_INTERVAL) fuel r with
      | none => none
      | some p =>
        some ⟨interval / 1000 :: p.intervals, b.good :: p.goodCounts,
              b.bad :: p.badCounts, b.tooFast :: p.tooFastCounts,
              b.tooSlow :: p.tooSlowCounts⟩

/-- An upper bound for all timestamps in a feedback list (0 for the
empty list). -/
def maxTimestamp : List IconFeedback → Int
  | [] => 0
  | c :: rest => max c.timestampMs (maxTimestamp rest)

/-- An iteration budget large enough for the outer loop to consume every
event: one iteration per event plus one per bucket up to the largest
timestamp, plus slack. -/
def sufficientFuel (events : List IconFeedback) : Nat :=
  events.length + ((maxTimestamp events + INCREMENT_INTERVAL).toNat / 10000) + 1

/-- `parseFeedback`, the aggregation entry point: runs the bucketing loop
from boundary 0 with a sufficient iteration budget. -/
def parseFeedback (events : List IconFeedback) : Option ParsedIconFeedback :=
  parseLoop 0 (sufficientFuel events) events

/-- The total of the four counters at output index `i` (0 when `i` is past
the end of the sequences). -/
def bucketTotalAt (p : ParsedIconFeedback) (i : Nat) : Nat :=
  p.goodCounts.getD i 0 + p.badCounts.getD i 0 + p.tooFastCounts.getD i 0 +
    p.tooSlowCounts.getD i 0

/-- Written from the spec sentence under test (not from the code): the
claimed coverage of output bucket `i`, namely timestamps in
the half-open interval from `i·W` (inclusive) to `(i+1)·W` (exclusive). -/
def inClaimedBucket (i : Nat) (c : IconFeedback) : Bool :=
  decide ((i : Int) * INCREMENT_INTERVAL ≤ c.timestampMs) &&
    decide (c.timestampMs < ((i : Int) + 1) * INCREMENT_INTERVAL)

/-- The coverage the code actually gives output bucket `i`: timestamps in
the half-open interval from `(i-1)·W` (inclusive) to `i·W` (exclusive). -/
def inShiftedBucket (i : Nat) (c : IconFeedback) : Bool :=
  decide ((i : Int) * INCREMENT_INTERVAL - INCREMENT_INTERVAL ≤ c.timestampMs) &&
    decide (c.timestampMs < (i : Int) * INCREMENT_INTERVAL)

/-- Events whose `type` field is the string GOOD. -/
def isGood (c : IconFeedback) : Bool := decide (c.type = some "GOOD")

/-- Events whose `type` field is the string BAD. -/
def isBad (c : IconFeedback) : Bool := decide (c.type = some "BAD")

/-- Events whose `type` field is the string TOO_FAST. -/
def isTooFast (c : IconFeedback) : Bool := decide (c.type = some "TOO_FAST")

/-- Events matching none of GOOD, BAD, TOO_FAST: these fall into the
`tooSlow` counter (this includes TOO_SLOW itself, unrecognized strings
and an absent `type` field). -/
def isOther (c : IconFeedback) : Bool := !(isGood c || isBad c || isTooFast c)

/-- The sortedness precondition of the aggregator: timestamps
non-decreasing along the list. -/
def sortedByTs (l : List IconFeedback) : Prop :=
  l.Pairwise (fun a b => a.timestampMs ≤ b.timestampMs)

/-! ## Discussion comments: data model -/

/-- Modelled from the spec: discussion.js is not among the sources; it
supplies the constant `COMMENT_TYPE_REPLY`, the `type` value marking a
reply comment. -/
def COMMENT_TYPE_REPLY : String := "REPLY"

/-- The immutable wire fields of one comment record: `commentKey.id`,
`parentKey.value.id` (absent for comments without a parent key) and
`type`. -/
structure Comment where
  id : Nat
  parentId : Option Nat
  type : String
deriving DecidableEq

/-- A comment object as materialized by `processNewComments`: the wire
record plus the mutable `replies` sequence (ids of the reply objects, in
append order) and the mutable `parent` back-reference (the parent's id,
`none` until linked). -/
structure StoredComment where
  data : Comment
  replies : List Nat
  parent : Option Nat
deriving DecidableEq

/-- The `displayedComments` map (the Seen-set): comment id to the
materialized comment object, as an insertion-ordered association list. -/
abbrev Store := List (Nat × StoredComment)

/-- `Map.get` : the entry at key `id`, if present. -/
def mapGet (s : Store) (id : Nat) : Option StoredComment :=
  match s with
  | [] => none
  | (k, v) :: rest => if k = id then some v else mapGet rest id

/-- `Map.set` : replace the entry at key `id` if present, else append a
new entry. -/
def mapSet (s : Store) (id : Nat) (v : StoredComment) : Store :=
  match s with
  | [] => [(id, v)]
  | (k, w) :: rest =>
    if k = id then (id, v) :: rest else (k, w) :: mapSet rest id v

/-- The first loop of `processNewComments`: walk the batch in order; skip
every comment whose id is already displayed; otherwise reset its
`replies` to empty, record it as newly added and register it in the
Seen-set.  Returns the updated Seen-set and the ids of the newly added
comments in batch order. -/
def dedupPass (store : Store) : List Comment → Store × List Nat
  | [] => (store, [])
  | c :: rest =>
    if (mapGet store c.id).isSome then dedupPass store rest
    else
      match dedupPass (mapSet store c.id ⟨c, [], none⟩) rest with
      | (s, ids) => (s, c.id :: ids)

/-- One step of the second loop of `processNewComments` for the newly
added comment `id`: if its type is `COMMENT_TYPE_REPLY`, resolve
`parentKey.value.id` through the Seen-set, append the comment to the
parent's `replies` and set the comment's `parent` back-reference.
A missing parent (or an absent parent key) is the JavaScript TypeError,
modelled as `none`. -/
def linkStep (store : Store) (id : Nat) : Option Store :=
  match mapGet store id with
  | none => none
  | some c =>
    if c.data.type = COMMENT_TYPE_REPLY then
      match c.data.parentId with
      | none => none
      | some pid =>
        match mapGet store pid with
        | none => none
        | some p =>
          match mapSet store pid ⟨p.data, p.replies ++ [id], p.parent⟩ with
          | s2 =>
            match mapGet s2 id with
            | none => none
            | some c2 => some (mapSet s2 id ⟨c2.data, c2.replies, some pid⟩)
    else some store

/-- The second loop of `processNewComments`: run `linkStep` over the newly
added ids in order. -/
def linkPass (store : Store) : List Nat → Option Store
  | [] => some store
  | id :: rest =>
    match linkStep store id with
    | none => none
    | some s2 => linkPass s2 rest

/-- `processNewComments` : deduplicate the batch against the Seen-set,
then link every newly added reply to its parent.  Returns the updated
Seen-set together with the newly added ids, or `none` when the reference
behavior would throw. -/
def processNewComments (store : Store) (allComments : List Comment) :
    Option (Store × List Nat) :=
  match dedupPass store allComments with
  | (s1, newIds) =>
    match linkPass s1 newIds with
    | none => none
    | some s2 => some (s2, newIds)

/-- The three-event list used by the spec's worked example. -/
def exampleEvents : List IconFeedback :=
  [⟨0, some "GOOD"⟩, ⟨5000, some "BAD"⟩, ⟨15000, some "TOO_FAST"⟩]

/-! ## Helper lemmas: feedback aggregation -/

theorem innerLoopAux_eq (interval : Int) (acc : BucketCounts)
    (l : List IconFeedback) :
    innerLoopAux interval acc l =
      ((l.takeWhile fun c => decide (c.timestampMs < interval)).foldl classify acc,
        l.dropWhile fun c => decide (c.timestampMs < interval)) := by
  induction l generalizing acc with
  | nil => simp [innerLoopAux]
  | cons c rest ih =>
    by_cases h : c.timestampMs < interval
    · simp [innerLoopAux, h, List.takeWhile_cons, List.dropWhile_cons, ih]
    · simp [innerLoopAux, h, List.takeWhile_cons, List.dropWhile_cons]

/-- The grand total of the four counters. -/
def countsTotal (b : BucketCounts) : Nat := b.good + b.bad + b.tooFast + b.tooSlow

theorem foldl_classify_spec (l : List IconFeedback) (acc : BucketCounts) :
    (l.foldl classify acc).good = acc.good + l.countP isGood ∧
    (l.foldl classify acc).bad = acc.bad + l.countP isBad ∧
    (l.foldl classify acc).tooFast = acc.tooFast + l.countP isTooFast ∧
    (l.foldl classify acc).tooSlow = acc.tooSlow + l.countP isOther := by
  induction l generalizing acc with
  | nil => simp
  | cons c rest ih =>
    obtain ⟨h1, h2, h3, h4⟩ := ih (classify acc c)
    simp only [List.foldl_cons, List.countP_cons, h1, h2, h3, h4]
    unfold classify isGood isBad isTooFast isOther
    by_cases hg : c.type = some "GOOD"
    · simp [hg, isGood] ; omega
    · by_cases hb : c.type = some "BAD"
      · simp [hg, hb, isGood, isBad] ; omega
      · by_cases hf : c.type = some "TOO_FAST"
        · simp [hg, hb, hf, isGood, isBad, isTooFast] ; omega
        · simp [hg, hb, hf, isGood, isBad, isTooFast] ; omega

theorem countsTotal_foldl (l : List IconFeedback) (acc : BucketCounts) :
    countsTotal (l.foldl classify acc) = countsTotal acc + l.length := by
  induction l generalizing acc with
  | nil => simp
  | cons c rest ih =>
    rw [List.foldl_cons, ih (classify acc c)]
    unfold countsTotal classify
    by_cases hg : c.type = some "GOOD"
    · simp [hg] ; omega
    · by_cases hb : c.type = some "BAD"
      · simp [hg, hb] ; omega
      · by_cases hf : c.type = some "TOO_FAST"
        · simp [hg, hb, hf] ; omega
        · simp [hg, hb, hf] ; omega

theorem maxTimestamp_spec (l : List IconFeedback) :
    ∀ c ∈ l, c.timestampMs ≤ maxTimestamp l := by
  induction l with
  | nil => simp
  | cons c rest ih =>
    intro d hd
    rcases List.mem_cons.mp hd with h | h
    · subst h ; exact le_max_left _ _
    · exact le_trans (ih d h) (le_max_right _ _)

theorem maxTimestamp_nonneg (l : List IconFeedback) : 0 ≤ maxTimestamp l := by
  induction l with
  | nil => simp [maxTimestamp]
  | cons c rest ih => exact le_trans ih (le_max_right _ _)

theorem parseLoop_cons (interval : Int) (fuel : Nat) (c : IconFeedback)
    (rest : List IconFeedback) :
    parseLoop interval (fuel + 1) (c :: rest) =
      match parseLoop (interval + INCREMENT_INTERVAL) fuel
          ((c :: rest).dropWhile fun d => decide (d.timestampMs < interval)) with
      | none => none
      | some p =>
        some ⟨interval / 1000 :: p.intervals,
          (((c :: rest).takeWhile fun d => decide (d.timestampMs < interval)).foldl
            classify ⟨0, 0, 0, 0⟩).good :: p.goodCounts,
          (((c :: rest).takeWhile fun d => decide (d.timestampMs < interval)).foldl
            classify ⟨0, 0, 0, 0⟩).bad :: p.badCounts,
          (((c :: rest).takeWhile fun d => decide (d.timestampMs < interval)).foldl
            classify ⟨0, 0, 0, 0⟩).tooFast :: p.tooFastCounts,
          (((c :: rest).takeWhile fun d => decide (d.timestampMs < interval)).foldl
            classify ⟨0, 0, 0, 0⟩).tooSlow :: p.tooSlowCounts⟩ := by
  rw [parseLoop, innerLoopAux_eq]

theorem parseLoop_isSome_of_fuel (M : Int) :
    ∀ (fuel : Nat) (events : List IconFeedback) (interval : Int),
      (∀ c ∈ events, c.timestampMs ≤ M) →
      events.length + (M + INCREMENT_INTERVAL - interval).toNat / 10000 ≤ fuel →
      (parseLoop interval fuel events).isSome := by
  intro fuel
  induction fuel with
  | zero =>
    intro events interval _ hb
    have hlen : events.length = 0 := by omega
    rw [List.length_eq_zero] at hlen
    subst hlen
    simp [parseLoop]
  | succ f ih =>
    intro events interval hM hb
    cases events with
    | nil => simp [parseLoop]
    | cons c rest =>
      rw [parseLoop_cons]
      have hsub :
          ∀ d ∈ (c :: rest).dropWhile (fun d => decide (d.timestampMs < interval)),
            d.timestampMs ≤ M := by
        intro d hd
        exact hM d ((List.dropWhile_sublist _).subset hd)
      have hok : (parseLoop (interval + INCREMENT_INTERVAL) f
          ((c :: rest).dropWhile fun d => decide (d.timestampMs < interval))).isSome := by
        apply ih _ _ hsub
        by_cases hc : c.timestampMs < interval
        · have hdw :
              (c :: rest).dropWhile (fun d => decide (d.timestampMs < interval)) =
                rest.dropWhile (fun d => decide (d.timestampMs < interval)) := by
            simp [List.dropWhile_cons, hc]
          have hlen :
              ((c :: rest).dropWhile
                (fun d => decide (d.timestampMs < interval))).length ≤ rest.length := by
            rw [hdw]
            exact (List.dropWhile_sublist _).length_le
          have hmono : (M + INCREMENT_INTERVAL - (interval + INCREMENT_INTERVAL)).toNat
              ≤ (M + INCREMENT_INTERVAL - interval).toNat := by
            unfold INCREMENT_INTERVAL
            omega
          have hdiv : (M + INCREMENT_INTERVAL - (interval + INCREMENT_INTERVAL)).toNat / 10000
              ≤ (M + INCREMENT_INTERVAL - interval).toNat / 10000 :=
            Nat.div_le_div_right hmono
          simp only [List.length_cons] at hb
          omega
        · have hib : interval ≤ c.timestampMs := not_lt.mp hc
          have hcM : c.timestampMs ≤ M := hM c (List.mem_cons_self _ _)
          have hshift : (M + INCREMENT_INTERVAL - interval).toNat
              = (M + INCREMENT_INTERVAL - (interval + INCREMENT_INTERVAL)).toNat + 10000 := by
            unfold INCREMENT_INTERVAL at *
            omega
          have hdw :
              (c :: rest).dropWhile (fun d => decide (d.timestampMs < interval)) =
                c :: rest := by
            simp [List.dropWhile_cons, hc]
          rw [hdw]
          rw [hshift, Nat.add_div_right _ (by norm_num)] at hb
          omega
      cases hsome : parseLoop (interval + INCREMENT_INTERVAL) f
          ((c :: rest).dropWhile fun d => decide (d.timestampMs < interval)) with
      | none => rw [hsome] at hok ; simp at hok
      | some p => simp [hsome]

theorem parseFeedback_isSome (events : List IconFeedback) :
    (parseFeedback events).isSome := by
  apply parseLoop_isSome_of_fuel (maxTimestamp events)
  · exact maxTimestamp_spec events
  · unfold sufficientFuel
    omega

theorem parseLoop_fuel_mono :
    ∀ (fuel fuel' : Nat) (interval : Int) (events : List IconFeedback)
      (p : ParsedIconFeedback),
      parseLoop interval fuel events = some p → fuel ≤ fuel' →
      parseLoop interval fuel' events = some p := by
  intro fuel
  induction fuel with
  | zero =>
    intro fuel' interval events p hp _
    cases events with
    | nil => simpa [parseLoop] using hp
    | cons c rest => simp [parseLoop] at hp
  | succ f ih =>
    intro fuel' interval events p hp hle
    cases events with
    | nil => simpa [parseLoop] using hp
    | cons c rest =>
      obtain ⟨f', rfl⟩ : ∃ f'', fuel' = f'' + 1 := ⟨fuel' - 1, by omega⟩
      rw [parseLoop_cons] at hp ⊢
      cases hsome : parseLoop (interval + INCREMENT_INTERVAL) f
          ((c :: rest).dropWhile fun d => decide (d.timestampMs < interval)) with
      | none => rw [hsome] at hp ; simp at hp
      | some q =>
        rw [hsome] at hp
        rw [ih f' _ _ q hsome (by omega)]
        exact hp

theorem parseLoop_counts_sum :
    ∀ (fuel : Nat) (interval : Int) (events : List IconFeedback)
      (p : ParsedIconFeedback),
      parseLoop interval fuel events = some p →
      p.goodCounts.sum + p.badCounts.sum + p.tooFastCounts.sum +
        p.tooSlowCounts.sum = events.length := by
  intro fuel
  induction fuel with
  | zero =>
    intro interval events p hp
    cases events with
    | nil =>
      rw [parseLoop] at hp
      cases hp
      simp
    | cons c rest => simp [parseLoop] at hp
  | succ f ih =>
    intro interval events p hp
    cases events with
    | nil =>
      rw [parseLoop] at hp
      cases hp
      simp
    | cons c rest =>
      rw [parseLoop_cons] at hp
      cases hsome : parseLoop (interval + INCREMENT_INTERVAL) f
          ((c :: rest).dropWhile fun d => decide (d.timestampMs < interval)) with
      | none => rw [hsome] at hp ; simp at hp
      | some q =>
        rw [hsome] at hp
        cases hp
        have hq := ih _ _ q hsome
        have htot := countsTotal_foldl
          ((c :: rest).takeWhile fun d => decide (d.timestampMs < interval)) ⟨0, 0, 0, 0⟩
        have hsplit :
            ((c :: rest).takeWhile fun d => decide (d.timestampMs < interval)).length +
              ((c :: rest).dropWhile fun d => decide (d.timestampMs < interval)).length =
              (c :: rest).length := by
          rw [← List.length_append, List.takeWhile_append_dropWhile]
        unfold countsTotal at htot
        simp only [List.sum_cons]
        simp at htot
        omega

theorem parseLoop_lengths :
    ∀ (fuel : Nat) (interval : Int) (events : List IconFeedback)
      (p : ParsedIconFeedback),
      parseLoop interval fuel events = some p →
      p.intervals.length = p.goodCounts.length ∧
      p.goodCounts.length = p.badCounts.length ∧
      p.badCounts.length = p.tooFastCounts.length ∧
      p.tooFastCounts.length = p.tooSlowCounts.length := by
  intro fuel
  induction fuel with
  | zero =>
    intro interval events p hp
    cases events with
    | nil =>
      rw [parseLoop] at hp
      cases hp
      simp
    | cons c rest => simp [parseLoop] at hp
  | succ f ih =>
    intro interval events p hp
    cases events with
    | nil =>
      rw [parseLoop] at hp
      cases hp
      simp
    | cons c rest =>
      rw [parseLoop_cons] at hp
      cases hsome : parseLoop (interval + INCREMENT_INTERVAL) f
          ((c :: rest).dropWhile fun d => decide (d.timestampMs < interval)) with
      | none => rw [hsome] at hp ; simp at hp
      | some q =>
        rw [hsome] at hp
        cases hp
        have hq := ih _ _ q hsome
        simp only [List.length_cons]
        omega

theorem countP_eq_length_of {α : Type} (l : List α) (q : α → Bool)
    (h : ∀ a ∈ l, q a = true) : l.countP q = l.length := by
  induction l with
  | nil => simp
  | cons a rest ih =>
    rw [List.countP_cons, ih (fun b hb => h b (List.mem_cons_of_mem a hb)),
      h a (List.mem_cons_self a rest)]
    simp

theorem countP_eq_zero_of {α : Type} (l : List α) (q : α → Bool)
    (h : ∀ a ∈ l, q a = false) : l.countP q = 0 := by
  induction l with
  | nil => simp
  | cons a rest ih =>
    rw [List.countP_cons, ih (fun b hb => h b (List.mem_cons_of_mem a hb)),
      h a (List.mem_cons_self a rest)]
    simp

theorem countP_ext {α : Type} (l : List α) (q q' : α → Bool)
    (h : ∀ a ∈ l, q a = q' a) : l.countP q = l.countP q' := by
  induction l with
  | nil => simp
  | cons a rest ih =>
    rw [List.countP_cons, List.countP_cons,
      ih (fun b hb => h b (List.mem_cons_of_mem a hb)), h a (List.mem_cons_self a rest)]

theorem dropWhile_lower_bound (interval : Int) :
    ∀ l : List IconFeedback, sortedByTs l →
      ∀ c ∈ l.dropWhile (fun d => decide (d.timestampMs < interval)),
        interval ≤ c.timestampMs := by
  intro l
  induction l with
  | nil => intro _ c hc ; simp [List.dropWhile] at hc
  | cons a rest ih =>
    intro hs c hc
    rw [sortedByTs, List.pairwise_cons] at hs
    obtain ⟨ha, hrest⟩ := hs
    rw [List.dropWhile_cons] at hc
    by_cases hlt : a.timestampMs < interval
    · simp only [hlt] at hc
      simp at hc
      exact ih hrest c hc
    · simp only [hlt] at hc
      simp at hc
      rcases hc with h | h
      · subst h ; exact not_lt.mp hlt
      · exact le_trans (not_lt.mp hlt) (ha c h)

theorem sortedByTs_dropWhile (interval : Int) (l : List IconFeedback)
    (hs : sortedByTs l) :
    sortedByTs (l.dropWhile (fun d => decide (d.timestampMs < interval))) :=
  List.Pairwise.sublist (List.dropWhile_sublist _) hs

theorem parseLoop_bucket :
    ∀ (fuel : Nat) (interval : Int) (events : List IconFeedback)
      (p : ParsedIconFeedback),
      sortedByTs events →
      (∀ c ∈ events, interval - INCREMENT_INTERVAL ≤ c.timestampMs) →
      parseLoop interval fuel events = some p →
      ∀ i : Nat, bucketTotalAt p i =
        events.countP (fun d =>
          decide (interval + (i : Int) * INCREMENT_INTERVAL - INCREMENT_INTERVAL
              ≤ d.timestampMs) &&
            decide (d.timestampMs < interval + (i : Int) * INCREMENT_INTERVAL)) := by
  intro fuel
  induction fuel with
  | zero =>
    intro interval events p _ _ hp i
    cases events with
    | nil =>
      rw [parseLoop] at hp
      cases hp
      simp [bucketTotalAt]
    | cons c rest => simp [parseLoop] at hp
  | succ f ih =>
    intro interval events p hsorted hinv hp i
    cases events with
    | nil =>
      rw [parseLoop] at hp
      cases hp
      simp [bucketTotalAt]
    | cons c rest =>
      rw [parseLoop_cons] at hp
      cases hsome : parseLoop (interval + INCREMENT_INTERVAL) f
          ((c :: rest).dropWhile fun d => decide (d.timestampMs < interval)) with
      | none => rw [hsome] at hp ; simp at hp
      | some q =>
        rw [hsome] at hp
        cases hp
        have happ :
            ((c :: rest).takeWhile fun d => decide (d.timestampMs < interval)) ++
              ((c :: rest).dropWhile fun d => decide (d.timestampMs < interval)) =
              c :: rest := List.takeWhile_append_dropWhile _ _
        have ht_lt : ∀ d ∈ (c :: rest).takeWhile
            (fun d => decide (d.timestampMs < interval)), d.timestampMs < interval := by
          intro d hd
          have := List.mem_takeWhile_imp hd
          simpa using this
        have ht_mem : ∀ d ∈ (c :: rest).takeWhile
            (fun d => decide (d.timestampMs < interval)), d ∈ c :: rest := by
          intro d hd
          rw [← happ]
          exact List.mem_append_left _ hd
        have hr_ge : ∀ d ∈ (c :: rest).dropWhile
            (fun d => decide (d.timestampMs < interval)), interval ≤ d.timestampMs :=
          dropWhile_lower_bound interval (c :: rest) hsorted
        have hr_inv : ∀ d ∈ (c :: rest).dropWhile
            (fun d => decide (d.timestampMs < interval)),
            interval + INCREMENT_INTERVAL - INCREMENT_INTERVAL ≤ d.timestampMs := by
          intro d hd
          have := hr_ge d hd
          omega
        have hq := ih (interval + INCREMENT_INTERVAL)
          ((c :: rest).dropWhile fun d => decide (d.timestampMs < interval)) q
          (sortedByTs_dropWhile interval _ hsorted) hr_inv hsome
        have hcnt : ((c :: rest).countP (fun d =>
            decide (interval + (i : Int) * INCREMENT_INTERVAL - INCREMENT_INTERVAL
                ≤ d.timestampMs) &&
              decide (d.timestampMs < interval + (i : Int) * INCREMENT_INTERVAL))) =
            (((c :: rest).takeWhile fun d => decide (d.timestampMs < interval)).countP
              (fun d =>
                decide (interval + (i : Int) * INCREMENT_INTERVAL - INCREMENT_INTERVAL
                    ≤ d.timestampMs) &&
                  decide (d.timestampMs < interval + (i : Int) * INCREMENT_INTERVAL))) +
            (((c :: rest).dropWhile fun d => decide (d.timestampMs < interval)).countP
              (fun d =>
                decide (interval + (i : Int) * INCREMENT_INTERVAL - INCREMENT_INTERVAL
                    ≤ d.timestampMs) &&
                  decide (d.timestampMs < interval + (i : Int) * INCREMENT_INTERVAL))) := by
          rw [← List.countP_append, happ]
        rw [hcnt]
        cases i with
        | zero =>
          have hgoal1 : (((c :: rest).takeWhile
              fun d => decide (d.timestampMs < interval)).countP fun d =>
                decide (interval + ((0 : Nat) : Int) * INCREMENT_INTERVAL
                    - INCREMENT_INTERVAL ≤ d.timestampMs) &&
                  decide (d.timestampMs
                    < interval + ((0 : Nat) : Int) * INCREMENT_INTERVAL)) =
              ((c :: rest).takeWhile fun d => decide (d.timestampMs < interval)).length := by
            apply countP_eq_length_of
            intro d hd
            have h1 := ht_lt d hd
            have h2 := hinv d (ht_mem d hd)
            simp only [Bool.and_eq_true, decide_eq_true_eq]
            unfold INCREMENT_INTERVAL at *
            constructor
            · push_cast ; omega
            · push_cast ; omega
          have hgoal2 : (((c :: rest).dropWhile
              fun d => decide (d.timestampMs < interval)).countP fun d =>
                decide (interval + ((0 : Nat) : Int) * INCREMENT_INTERVAL
                    - INCREMENT_INTERVAL ≤ d.timestampMs) &&
                  decide (d.timestampMs
                    < interval + ((0 : Nat) : Int) * INCREMENT_INTERVAL)) = 0 := by
            apply countP_eq_zero_of
            intro d hd
            have h1 := hr_ge d hd
            simp only [Bool.and_eq_false_iff, decide_eq_false_iff_not, not_le, not_lt]
            unfold INCREMENT_INTERVAL at *
            right
            push_cast
            omega
          rw [hgoal1, hgoal2]
          have htot := countsTotal_foldl
            ((c :: rest).takeWhile fun d => decide (d.timestampMs < interval)) ⟨0, 0, 0, 0⟩
          unfold countsTotal at htot
          simp only [bucketTotalAt, List.getD_cons_zero]
          simp at htot
          omega
        | succ j =>
          have hgoal1 : (((c :: rest).takeWhile
              fun d => decide (d.timestampMs < interval)).countP fun d =>
                decide (interval + ((j + 1 : Nat) : Int) * INCREMENT_INTERVAL
                    - INCREMENT_INTERVAL ≤ d.timestampMs) &&
                  decide (d.timestampMs
                    < interval + ((j + 1 : Nat) : Int) * INCREMENT_INTERVAL)) = 0 := by
            apply countP_eq_zero_of
            intro d hd
            have h1 := ht_lt d hd
            simp only [Bool.and_eq_false_iff, decide_eq_false_iff_not, not_le, not_lt]
            unfold INCREMENT_INTERVAL at *
            left
            push_cast
            omega
          have hext : (((c :: rest).dropWhile
              fun d => decide (d.timestampMs < interval)).countP fun d =>
                decide (interval + INCREMENT_INTERVAL + (j : Int) * INCREMENT_INTERVAL
                    - INCREMENT_INTERVAL ≤ d.timestampMs) &&
                  decide (d.timestampMs
                    < interval + INCREMENT_INTERVAL + (j : Int) * INCREMENT_INTERVAL)) =
              (((c :: rest).dropWhile
              fun d => decide (d.timestampMs < interval)).countP fun d =>
                decide (interval + ((j + 1 : Nat) : Int) * INCREMENT_INTERVAL
                    - INCREMENT_INTERVAL ≤ d.timestampMs) &&
                  decide (d.timestampMs
                    < interval + ((j + 1 : Nat) : Int) * INCREMENT_INTERVAL)) := by
            apply countP_ext
            intro d _
            have harith : interval + INCREMENT_INTERVAL + (j : Int) * INCREMENT_INTERVAL
                = interval + ((j + 1 : Nat) : Int) * INCREMENT_INTERVAL := by
              push_cast
              ring
            rw [harith]
          rw [hgoal1, ← hext, ← hq j]
          simp [bucketTotalAt, List.getD_cons_succ]

theorem parseFeedback_def (events : List IconFeedback) :
    parseFeedback events = parseLoop 0 (sufficientFuel events) events := rfl

/-! ## Claim theorems: feedback aggregation -/

/-- C1: for every input list of feedback events with non-negative integer
timestamps sorted ascending, the sum of all entries of the four count
sequences produced by `parseFeedback` equals the length of the input list:
every event is counted exactly once. -/
theorem parseFeedback_counts_total (events : List IconFeedback)
    (p : ParsedIconFeedback) (hs : sortedByTs events)
    (hn : ∀ c ∈ events, 0 ≤ c.timestampMs)
    (hp : parseFeedback events = some p) :
    p.goodCounts.sum + p.badCounts.sum + p.tooFastCounts.sum +
      p.tooSlowCounts.sum = events.length := by
  rw [parseFeedback_def] at hp
  exact parseLoop_counts_sum _ _ _ _ hp

/-- Witness for C1 at the spec's three-event example list. -/
theorem parseFeedback_counts_total_witness :
    sortedByTs exampleEvents ∧ (∀ c ∈ exampleEvents, 0 ≤ c.timestampMs) ∧
    parseFeedback exampleEvents =
      some ⟨[0, 10, 20], [0, 1, 0], [0, 1, 0], [0, 0, 1], [0, 0, 0]⟩ ∧
    ([0, 1, 0] : List Nat).sum + ([0, 1, 0] : List Nat).sum +
      ([0, 0, 1] : List Nat).sum + ([0, 0, 0] : List Nat).sum =
      exampleEvents.length := by
  refine ⟨by unfold sortedByTs ; decide, by decide, by decide, ?_⟩
  exact parseFeedback_counts_total exampleEvents
    ⟨[0, 10, 20], [0, 1, 0], [0, 1, 0], [0, 0, 1], [0, 0, 0]⟩
    (by unfold sortedByTs ; decide) (by decide) (by decide)

/-- C5 (counterexample to the claim as stated): on the one-event list with
a GOOD click at timestamp 0, the claim predicts that output bucket 0
(covering `[0, 10000)` ms by the claimed rule) counts that event, but the
code leaves bucket 0 completely empty. -/
theorem parseFeedback_claimed_bucket_counterexample :
    (parseFeedback [⟨0, some "GOOD"⟩]).map (fun p => bucketTotalAt p 0) =
      some 0 ∧
    List.countP (fun c => inClaimedBucket 0 c) [⟨0, some "GOOD"⟩] = 1 := by
  exact ⟨by decide, by decide⟩

/-- C5 (amended): for every sorted, non-negative-timestamp input list, the
bucket at output index `i` produced by `parseFeedback` counts exactly the
events whose `timestampMs` lies in the half-open interval
`[(i-1)*W, i*W)` milliseconds, where `W = 10000` (one interval lower than
the claimed `[i*W, (i+1)*W)`; in particular bucket 0 is always empty). -/
theorem parseFeedback_bucket_range (events : List IconFeedback)
    (p : ParsedIconFeedback) (hs : sortedByTs events)
    (hn : ∀ c ∈ events, 0 ≤ c.timestampMs)
    (hp : parseFeedback events = some p) (i : Nat) :
    bucketTotalAt p i = events.countP (fun c => inShiftedBucket i c) := by
  rw [parseFeedback_def] at hp
  have hinv : ∀ c ∈ events, (0 : Int) - INCREMENT_INTERVAL ≤ c.timestampMs := by
    intro c hc
    have := hn c hc
    unfold INCREMENT_INTERVAL
    omega
  have h := parseLoop_bucket (sufficientFuel events) 0 events p hs hinv hp i
  rw [h]
  apply countP_ext
  intro d _
  unfold inShiftedBucket
  norm_num

/-- Witness for the amended C5: a GOOD click at timestamp 0 is counted by
output bucket 1 (which covers `[0, 10000)` ms). -/
theorem parseFeedback_bucket_range_witness :
    sortedByTs [⟨0, some "GOOD"⟩] ∧
    (∀ c ∈ [(⟨0, some "GOOD"⟩ : IconFeedback)], 0 ≤ c.timestampMs) ∧
    parseFeedback [⟨0, some "GOOD"⟩] =
      some ⟨[0, 10], [0, 1], [0, 0], [0, 0], [0, 0]⟩ ∧
    bucketTotalAt ⟨[0, 10], [0, 1], [0, 0], [0, 0], [0, 0]⟩ 1 =
      List.countP (fun c => inShiftedBucket 1 c) [⟨0, some "GOOD"⟩] := by
  refine ⟨by unfold sortedByTs ; decide, by decide, by decide, ?_⟩
  exact parseFeedback_bucket_range [⟨0, some "GOOD"⟩]
    ⟨[0, 10], [0, 1], [0, 0], [0, 0], [0, 0]⟩
    (by unfold sortedByTs ; decide) (by decide) (by decide) 1

/-- C6 (counterexample to the claim as stated): on the spec's three-event
example, `parseFeedback` does not produce the claimed
`intervalsSec = [0,10]`, `goodCounts = [1,0]`, `badCounts = [1,0]`,
`tooFastCounts = [0,1]`, `tooSlowCounts = [0,0]`: the actual output has
three buckets, with the leading one empty. -/
theorem parseFeedback_example_counterexample :
    parseFeedback exampleEvents =
      some ⟨[0, 10, 20], [0, 1, 0], [0, 1, 0], [0, 0, 1], [0, 0, 0]⟩ ∧
    (⟨[0, 10, 20], [0, 1, 0], [0, 1, 0], [0, 0, 1], [0, 0, 0]⟩ :
        ParsedIconFeedback) ≠
      ⟨[0, 10], [1, 0], [1, 0], [0, 1], [0, 0]⟩ := by
  exact ⟨by decide, by decide⟩

/-- C6 (amended): applying `parseFeedback` to the three-event list
`[{0,GOOD},{5000,BAD},{15000,TOO_FAST}]` produces
`intervalsSec = [0,10,20]`, `goodCounts = [0,1,0]`, `badCounts = [0,1,0]`,
`tooFastCounts = [0,0,1]` and `tooSlowCounts = [0,0,0]`: every count
sequence is shifted one bucket later than the claim states, with an
empty leading bucket labeled 0. -/
theorem parseFeedback_example :
    parseFeedback exampleEvents =
      some ⟨[0, 10, 20], [0, 1, 0], [0, 1, 0], [0, 0, 1], [0, 0, 0]⟩ := by
  decide

/-- C7: each event consumed by an iteration of the inner loop of
`parseFeedback` increments exactly one of the four counters, selected by
its `type` field: GOOD increments `good`, BAD increments `bad`, TOO_FAST
increments `tooFast`, and every other type value (including TOO_SLOW,
unrecognized strings and an absent `type`) increments `tooSlow`; in
total the four counters sum to the number of consumed events. -/
theorem innerLoop_classification (interval : Int) (l : List IconFeedback) :
    (innerLoopAux interval ⟨0, 0, 0, 0⟩ l).1.good =
      (l.takeWhile fun d => decide (d.timestampMs < interval)).countP isGood ∧
    (innerLoopAux interval ⟨0, 0, 0, 0⟩ l).1.bad =
      (l.takeWhile fun d => decide (d.timestampMs < interval)).countP isBad ∧
    (innerLoopAux interval ⟨0, 0, 0, 0⟩ l).1.tooFast =
      (l.takeWhile fun d => decide (d.timestampMs < interval)).countP isTooFast ∧
    (innerLoopAux interval ⟨0, 0, 0, 0⟩ l).1.tooSlow =
      (l.takeWhile fun d => decide (d.timestampMs < interval)).countP isOther ∧
    (innerLoopAux interval ⟨0, 0, 0, 0⟩ l).1.good +
      (innerLoopAux interval ⟨0, 0, 0, 0⟩ l).1.bad +
      (innerLoopAux interval ⟨0, 0, 0, 0⟩ l).1.tooFast +
      (innerLoopAux interval ⟨0, 0, 0, 0⟩ l).1.tooSlow =
      (l.takeWhile fun d => decide (d.timestampMs < interval)).length := by
  rw [innerLoopAux_eq]
  dsimp only
  obtain ⟨h1, h2, h3, h4⟩ := foldl_classify_spec
    (l.takeWhile fun d => decide (d.timestampMs < interval)) ⟨0, 0, 0, 0⟩
  have h5 := countsTotal_foldl
    (l.takeWhile fun d => decide (d.timestampMs < interval)) ⟨0, 0, 0, 0⟩
  unfold countsTotal at h5
  simp at h1 h2 h3 h4 h5
  exact ⟨h1, h2, h3, h4, by omega⟩

/-- C8: for every finite input list, `parseFeedback` terminates: with any
iteration budget of at least `sufficientFuel events`, the outer loop
consumes every event and exits with a result, and that result is the one
`parseFeedback` returns. -/
theorem parseFeedback_terminates (events : List IconFeedback) (fuel : Nat)
    (hf : sufficientFuel events ≤ fuel) :
    ∃ p, parseLoop 0 fuel events = some p ∧ parseFeedback events = some p := by
  obtain ⟨p, hp⟩ := Option.isSome_iff_exists.mp (parseFeedback_isSome events)
  rw [parseFeedback_def] at hp
  exact ⟨p, parseLoop_fuel_mono _ _ _ _ _ hp hf, by rw [parseFeedback_def] ; exact hp⟩

/-- Witness for C8 at the three-event example with a budget above the
sufficient one. -/
theorem parseFeedback_terminates_witness :
    sufficientFuel exampleEvents ≤ 9 ∧
    ∃ p, parseLoop 0 9 exampleEvents = some p ∧
      parseFeedback exampleEvents = some p := by
  exact ⟨by decide, parseFeedback_terminates exampleEvents 9 (by decide)⟩

/-- C9: for every input list, the five output sequences produced by
`parseFeedback` (intervals and the four count sequences) all have the
same length, because each outer-loop iteration appends exactly one
element to each of them. -/
theorem parseFeedback_parallel_lengths (events : List IconFeedback)
    (p : ParsedIconFeedback) (hp : parseFeedback events = some p) :
    p.intervals.length = p.goodCounts.length ∧
    p.goodCounts.length = p.badCounts.length ∧
    p.badCounts.length = p.tooFastCounts.length ∧
    p.tooFastCounts.length = p.tooSlowCounts.length := by
  rw [parseFeedback_def] at hp
  exact parseLoop_lengths _ _ _ _ hp

/-- Witness for C9 at the three-event example. -/
theorem parseFeedback_parallel_lengths_witness :
    parseFeedback exampleEvents =
      some ⟨[0, 10, 20], [0, 1, 0], [0, 1, 0], [0, 0, 1], [0, 0, 0]⟩ ∧
    (([0, 10, 20] : List Int).length = ([0, 1, 0] : List Nat).length ∧
      ([0, 1, 0] : List Nat).length = ([0, 1, 0] : List Nat).length ∧
      ([0, 1, 0] : List Nat).length = ([0, 0, 1] : List Nat).length ∧
      ([0, 0, 1] : List Nat).length = ([0, 0, 0] : List Nat).length) := by
  exact ⟨by decide, parseFeedback_parallel_lengths exampleEvents
    ⟨[0, 10, 20], [0, 1, 0], [0, 1, 0], [0, 0, 1], [0, 0, 0]⟩ (by decide)⟩

/-! ## Helper lemmas: comment threading -/

theorem mapGet_mapSet_self (s : Store) (id : Nat) (v : StoredComment) :
    mapGet (mapSet s id v) id = some v := by
  induction s with
  | nil => simp [mapGet, mapSet]
  | cons kv rest ih =>
    obtain ⟨k, w⟩ := kv
    by_cases h : k = id
    · simp [mapSet, h, mapGet]
    · simp [mapSet, h, mapGet, ih]

theorem mapGet_mapSet_ne (s : Store) (key j : Nat) (v : StoredComment)
    (h : j ≠ key) : mapGet (mapSet s key v) j = mapGet s j := by
  induction s with
  | nil =>
    simp only [mapSet, mapGet]
    rw [if_neg (by omega : ¬ key = j)]
  | cons kv rest ih =>
    obtain ⟨k, w⟩ := kv
    simp only [mapSet]
    by_cases hk : k = key
    · rw [if_pos hk]
      simp only [mapGet]
      rw [if_neg (by omega : ¬ key = j), if_neg (by omega : ¬ k = j)]
    · rw [if_neg hk]
      simp only [mapGet]
      by_cases hj : k = j
      · rw [if_pos hj, if_pos hj]
      · rw [if_neg hj, if_neg hj]
        exact ih

theorem dedupPass_cons (store : Store) (c : Comment) (rest : List Comment) :
    dedupPass store (c :: rest) =
      if (mapGet store c.id).isSome then dedupPass store rest
      else ((dedupPass (mapSet store c.id ⟨c, [], none⟩) rest).1,
            c.id :: (dedupPass (mapSet store c.id ⟨c, [], none⟩) rest).2) := by
  rw [dedupPass]

theorem dedupPass_cons_seen (store : Store) (c : Comment) (rest : List Comment)
    (v : StoredComment) (hg : mapGet store c.id = some v) :
    dedupPass store (c :: rest) = dedupPass store rest := by
  rw [dedupPass_cons, hg]
  rfl

theorem dedupPass_cons_new (store : Store) (c : Comment) (rest : List Comment)
    (hg : mapGet store c.id = none) :
    dedupPass store (c :: rest) =
      ((dedupPass (mapSet store c.id ⟨c, [], none⟩) rest).1,
        c.id :: (dedupPass (mapSet store c.id ⟨c, [], none⟩) rest).2) := by
  rw [dedupPass_cons, hg]
  rfl

theorem dedup_preserves (L : List Comment) :
    ∀ (store : Store) (id : Nat) (v : StoredComment),
      mapGet store id = some v → mapGet (dedupPass store L).1 id = some v := by
  induction L with
  | nil => intro store id v h ; simpa [dedupPass] using h
  | cons c rest ih =>
    intro store id v h
    cases hg : mapGet store c.id with
    | some w =>
      rw [dedupPass_cons_seen store c rest w hg]
      exact ih store id v h
    | none =>
      rw [dedupPass_cons_new store c rest hg]
      apply ih
      have hne : id ≠ c.id := by
        intro he
        subst he
        rw [h] at hg
        cases hg
      rw [mapGet_mapSet_ne _ _ _ _ hne]
      exact h

theorem dedup_mem_batch (L : List Comment) :
    ∀ (store : Store) (c : Comment), c ∈ L →
      (mapGet (dedupPass store L).1 c.id).isSome := by
  induction L with
  | nil => intro store c h ; cases h
  | cons a rest ih =>
    intro store c hc
    cases hg : mapGet store a.id with
    | some w =>
      rw [dedupPass_cons_seen store a rest w hg]
      rcases List.mem_cons.mp hc with h | h
      · subst h
        rw [dedup_preserves rest store c.id w hg]
        rfl
      · exact ih store c h
    | none =>
      rw [dedupPass_cons_new store a rest hg]
      rcases List.mem_cons.mp hc with h | h
      · subst h
        show (mapGet (dedupPass (mapSet store c.id ⟨c, [], none⟩) rest).1 c.id).isSome
        rw [dedup_preserves rest _ c.id ⟨c, [], none⟩ (mapGet_mapSet_self _ _ _)]
        rfl
      · exact ih _ c h

theorem dedup_all_seen (L : List Comment) :
    ∀ store : Store, (∀ c ∈ L, (mapGet store c.id).isSome) →
      dedupPass store L = (store, []) := by
  induction L with
  | nil => intro store _ ; rfl
  | cons c rest ih =>
    intro store h
    obtain ⟨v, hv⟩ := Option.isSome_iff_exists.mp (h c (List.mem_cons_self c rest))
    rw [dedupPass_cons_seen store c rest v hv]
    exact ih store (fun d hd => h d (List.mem_cons_of_mem c hd))

theorem dedup_new_unseen (L : List Comment) :
    ∀ (store : Store) (id : Nat), id ∈ (dedupPass store L).2 →
      mapGet store id = none := by
  induction L with
  | nil => intro store id h ; simp [dedupPass] at h
  | cons c rest ih =>
    intro store id h
    cases hg : mapGet store c.id with
    | some w =>
      rw [dedupPass_cons_seen store c rest w hg] at h
      exact ih store id h
    | none =>
      rw [dedupPass_cons_new store c rest hg] at h
      rcases List.mem_cons.mp h with he | he
      · subst he
        exact hg
      · have hid := ih _ id he
        have hne : id ≠ c.id := by
          intro heq
          subst heq
          rw [mapGet_mapSet_self] at hid
          cases hid
        rw [mapGet_mapSet_ne _ _ _ _ hne] at hid
        exact hid

theorem dedup_nodup (L : List Comment) :
    ∀ store : Store, (dedupPass store L).2.Nodup := by
  induction L with
  | nil => intro store ; simp [dedupPass]
  | cons c rest ih =>
    intro store
    cases hg : mapGet store c.id with
    | some w =>
      rw [dedupPass_cons_seen store c rest w hg]
      exact ih store
    | none =>
      rw [dedupPass_cons_new store c rest hg]
      refine List.nodup_cons.mpr ⟨?_, ih _⟩
      intro hmem
      have hid := dedup_new_unseen rest _ c.id hmem
      rw [mapGet_mapSet_self] at hid
      cases hid

theorem dedup_new_present (L : List Comment) :
    ∀ (store : Store) (id : Nat), id ∈ (dedupPass store L).2 →
      ∃ v, mapGet (dedupPass store L).1 id = some v := by
  induction L with
  | nil => intro store id h ; simp [dedupPass] at h
  | cons c rest ih =>
    intro store id h
    cases hg : mapGet store c.id with
    | some w =>
      rw [dedupPass_cons_seen store c rest w hg] at h ⊢
      exact ih store id h
    | none =>
      rw [dedupPass_cons_new store c rest hg] at h ⊢
      rcases List.mem_cons.mp h with he | he
      · subst he
        exact ⟨⟨c, [], none⟩,
          dedup_preserves rest _ c.id ⟨c, [], none⟩ (mapGet_mapSet_self _ _ _)⟩
      · exact ih _ id he

theorem dedup_first_occurrence (L1 : List Comment) :
    ∀ (c : Comment) (L2 : List Comment) (store : Store),
      mapGet store c.id = none → (∀ d ∈ L1, d.id ≠ c.id) →
      mapGet (dedupPass store (L1 ++ c :: L2)).1 c.id = some ⟨c, [], none⟩ ∧
        c.id ∈ (dedupPass store (L1 ++ c :: L2)).2 := by
  induction L1 with
  | nil =>
    intro c L2 store hnone _
    rw [List.nil_append, dedupPass_cons_new store c L2 hnone]
    exact ⟨dedup_preserves L2 _ c.id ⟨c, [], none⟩ (mapGet_mapSet_self _ _ _),
      List.mem_cons_self _ _⟩
  | cons a L1' ih =>
    intro c L2 store hnone hne
    have hanec : a.id ≠ c.id := hne a (List.mem_cons_self a L1')
    rw [List.cons_append]
    cases hg : mapGet store a.id with
    | some w =>
      rw [dedupPass_cons_seen store a _ w hg]
      exact ih c L2 store hnone (fun d hd => hne d (List.mem_cons_of_mem a hd))
    | none =>
      rw [dedupPass_cons_new store a _ hg]
      have hnone' : mapGet (mapSet store a.id ⟨a, [], none⟩) c.id = none := by
        rw [mapGet_mapSet_ne _ _ _ _ (Ne.symm hanec)]
        exact hnone
      obtain ⟨h1, h2⟩ := ih c L2 _ hnone'
        (fun d hd => hne d (List.mem_cons_of_mem a hd))
      exact ⟨h1, List.mem_cons_of_mem _ h2⟩

theorem linkStep_preserves (store s2 : Store) (i : Nat)
    (h : linkStep store i = some s2) (j : Nat) (v : StoredComment)
    (hv : mapGet store j = some v) :
    ∃ v2, mapGet s2 j = some v2 ∧ v2.data = v.data ∧
      (∀ x ∈ v.replies, x ∈ v2.replies) ∧ (j ≠ i → v2.parent = v.parent) := by
  unfold linkStep at h
  cases hgc : mapGet store i with
  | none => rw [hgc] at h ; simp at h
  | some c =>
    rw [hgc] at h
    dsimp only at h
    by_cases ht : c.data.type = COMMENT_TYPE_REPLY
    · rw [if_pos ht] at h
      cases hpid : c.data.parentId with
      | none => rw [hpid] at h ; simp at h
      | some pid =>
        rw [hpid] at h
        dsimp only at h
        cases hgp : mapGet store pid with
        | none => rw [hgp] at h ; simp at h
        | some p =>
          rw [hgp] at h
          dsimp only at h
          cases hgc2 : mapGet
              (mapSet store pid ⟨p.data, p.replies ++ [i], p.parent⟩) i with
          | none => rw [hgc2] at h ; simp at h
          | some c2 =>
            rw [hgc2] at h
            dsimp only at h
            injection h with hs2
            subst hs2
            by_cases hji : j = i
            · refine ⟨⟨c2.data, c2.replies, some pid⟩, ?_, ?_, ?_, ?_⟩
              · rw [hji]
                exact mapGet_mapSet_self _ _ _
              · have hvc : v = c := by
                  rw [hji, hgc] at hv
                  exact (Option.some.injEq _ _ ▸ hv.symm)
                by_cases hpi : pid = i
                · have hc2 : c2 = ⟨p.data, p.replies ++ [i], p.parent⟩ := by
                    rw [hpi, mapGet_mapSet_self] at hgc2
                    injection hgc2 with hh
                    exact hh.symm
                  have hpc : p = c := by
                    rw [hpi, hgc] at hgp
                    exact (Option.some.injEq _ _ ▸ hgp.symm)
                  rw [hc2, hvc, hpc]
                · have hc2 : c2 = c := by
                    rw [mapGet_mapSet_ne _ _ _ _ (by omega : i ≠ pid), hgc] at hgc2
                    injection hgc2 with hh
                    exact hh.symm
                  rw [hc2, hvc]
              · intro x hx
                have hvc : v = c := by
                  rw [hji, hgc] at hv
                  exact (Option.some.injEq _ _ ▸ hv.symm)
                by_cases hpi : pid = i
                · have hc2 : c2 = ⟨p.data, p.replies ++ [i], p.parent⟩ := by
                    rw [hpi, mapGet_mapSet_self] at hgc2
                    injection hgc2 with hh
                    exact hh.symm
                  have hpc : p = c := by
                    rw [hpi, hgc] at hgp
                    exact (Option.some.injEq _ _ ▸ hgp.symm)
                  rw [hc2]
                  apply List.mem_append_left
                  rw [hpc, ← hvc]
                  exact hx
                · have hc2 : c2 = c := by
                    rw [mapGet_mapSet_ne _ _ _ _ (by omega : i ≠ pid), hgc] at hgc2
                    injection hgc2 with hh
                    exact hh.symm
                  rw [hc2, ← hvc]
                  exact hx
              · intro hne
                exact absurd hji hne
            · have h1 : mapGet (mapSet
                  (mapSet store pid ⟨p.data, p.replies ++ [i], p.parent⟩) i
                  ⟨c2.data, c2.replies, some pid⟩) j =
                  mapGet (mapSet store pid ⟨p.data, p.replies ++ [i], p.parent⟩) j :=
                mapGet_mapSet_ne _ _ _ _ hji
              by_cases hjp : j = pid
              · have hvp : v = p := by
                  rw [hjp, hgp] at hv
                  exact (Option.some.injEq _ _ ▸ hv.symm)
                refine ⟨⟨p.data, p.replies ++ [i], p.parent⟩, ?_, ?_, ?_, ?_⟩
                · rw [h1, hjp]
                  exact mapGet_mapSet_self _ _ _
                · rw [hvp]
                · intro x hx
                  apply List.mem_append_left
                  rw [← hvp]
                  exact hx
                · intro _
                  rw [hvp]
              · refine ⟨v, ?_, rfl, fun x hx => hx, fun _ => rfl⟩
                rw [h1, mapGet_mapSet_ne _ _ _ _ hjp]
                exact hv
    · rw [if_neg ht] at h
      injection h with hs2
      subst hs2
      exact ⟨v, hv, rfl, fun x hx => hx, fun _ => rfl⟩

theorem linkStep_reply_spec (store s2 : Store) (i : Nat)
    (h : linkStep store i = some s2) (v : StoredComment)
    (hv : mapGet store i = some v) (ht : v.data.type = COMMENT_TYPE_REPLY) :
    ∃ pid p, v.data.parentId = some pid ∧ mapGet store pid = some p ∧
      (∃ va, mapGet s2 i = some va ∧ va.data = v.data ∧ va.parent = some pid) ∧
      (∃ pv, mapGet s2 pid = some pv ∧ i ∈ pv.replies ∧ pv.data = p.data) := by
  unfold linkStep at h
  rw [hv] at h
  dsimp only at h
  rw [if_pos ht] at h
  cases hpid : v.data.parentId with
  | none => rw [hpid] at h ; simp at h
  | some pid =>
    rw [hpid] at h
    dsimp only at h
    cases hgp : mapGet store pid with
    | none => rw [hgp] at h ; simp at h
    | some p =>
      rw [hgp] at h
      dsimp only at h
      cases hgc2 : mapGet
          (mapSet store pid ⟨p.data, p.replies ++ [i], p.parent⟩) i with
      | none => rw [hgc2] at h ; simp at h
      | some c2 =>
        rw [hgc2] at h
        dsimp only at h
        injection h with hs2
        subst hs2
        have hc2data : c2.data = v.data := by
          by_cases hpi : pid = i
          · rw [hpi, mapGet_mapSet_self] at hgc2
            injection hgc2 with hh
            rw [← hh]
            have hpv : p = v := by
              rw [hpi, hv] at hgp
              injection hgp with hh2
              exact hh2.symm
            rw [hpv]
          · rw [mapGet_mapSet_ne _ _ _ _ (by omega : i ≠ pid), hv] at hgc2
            injection hgc2 with hh
            rw [← hh]
        refine ⟨pid, p, rfl, hgp,
          ⟨⟨c2.data, c2.replies, some pid⟩, mapGet_mapSet_self _ _ _, hc2data, rfl⟩, ?_⟩
        by_cases hpi : pid = i
        · have hc2P : c2 = ⟨p.data, p.replies ++ [i], p.parent⟩ := by
            rw [hpi, mapGet_mapSet_self] at hgc2
            injection hgc2 with hh
            exact hh.symm
          refine ⟨⟨c2.data, c2.replies, some pid⟩, ?_, ?_, ?_⟩
          · rw [hpi]
            exact mapGet_mapSet_self _ _ _
          · rw [hc2P]
            exact List.mem_append_right _ (List.mem_singleton.mpr rfl)
          · rw [hc2P]
        · refine ⟨⟨p.data, p.replies ++ [i], p.parent⟩, ?_, ?_, rfl⟩
          · rw [mapGet_mapSet_ne _ _ _ _ (by omega : pid ≠ i)]
            exact mapGet_mapSet_self _ _ _
          · exact List.mem_append_right _ (List.mem_singleton.mpr rfl)

theorem linkPass_preserves :
    ∀ (ids : List Nat) (store s' : Store), linkPass store ids = some s' →
      ∀ (j : Nat) (v : StoredComment), mapGet store j = some v →
      ∃ v', mapGet s' j = some v' ∧ v'.data = v.data ∧
        (∀ x ∈ v.replies, x ∈ v'.replies) ∧ (j ∉ ids → v'.parent = v.parent) := by
  intro ids
  induction ids with
  | nil =>
    intro store s' h j v hv
    rw [linkPass] at h
    injection h with hs
    subst hs
    exact ⟨v, hv, rfl, fun x hx => hx, fun _ => rfl⟩
  | cons a rest ih =>
    intro store s' h j v hv
    rw [linkPass] at h
    cases hstep : linkStep store a with
    | none => rw [hstep] at h ; simp at h
    | some s2 =>
      rw [hstep] at h
      dsimp only at h
      obtain ⟨v2, hv2, hdata2, hrep2, hpar2⟩ := linkStep_preserves store s2 a hstep j v hv
      obtain ⟨v', hv', hdata', hrep', hpar'⟩ := ih s2 s' h j v2 hv2
      refine ⟨v', hv', by rw [hdata', hdata2], fun x hx => hrep' x (hrep2 x hx), ?_⟩
      intro hj
      have hja : j ≠ a := fun he => hj (he ▸ List.mem_cons_self a rest)
      have hjrest : j ∉ rest := fun he => hj (List.mem_cons_of_mem a he)
      rw [hpar' hjrest, hpar2 hja]

theorem linkPass_link :
    ∀ (ids : List Nat) (store s' : Store), ids.Nodup →
      linkPass store ids = some s' →
      ∀ id ∈ ids, ∀ v, mapGet store id = some v →
        v.data.type = COMMENT_TYPE_REPLY →
        ∃ pid v' pv, v.data.parentId = some pid ∧
          mapGet s' id = some v' ∧ v'.data = v.data ∧ v'.parent = some pid ∧
          mapGet s' pid = some pv ∧ id ∈ pv.replies := by
  intro ids
  induction ids with
  | nil => intro _ _ _ _ id hid ; cases hid
  | cons a rest ih =>
    intro store s' hnd h id hid v hv ht
    rw [linkPass] at h
    cases hstep : linkStep store a with
    | none => rw [hstep] at h ; simp at h
    | some s2 =>
      rw [hstep] at h
      dsimp only at h
      obtain ⟨hna, hndrest⟩ := List.nodup_cons.mp hnd
      rcases List.mem_cons.mp hid with he | he
      · subst he
        obtain ⟨pid, p, hpid, hgp, ⟨va, hva, hvadata, hvapar⟩,
            ⟨pv, hpv, hmem, hpvdata⟩⟩ := linkStep_reply_spec store s2 id hstep v hv ht
        obtain ⟨va', hva', hvadata', _, hpar'⟩ := linkPass_preserves rest s2 s' h id va hva
        obtain ⟨pv', hpv', hpvdata', hrepv', _⟩ := linkPass_preserves rest s2 s' h pid pv hpv
        refine ⟨pid, va', pv', hpid, hva', by rw [hvadata', hvadata], ?_, hpv',
          hrepv' id hmem⟩
        rw [hpar' hna, hvapar]
      · obtain ⟨v2, hv2, hdata2, _, _⟩ := linkStep_preserves store s2 a hstep id v hv
        obtain ⟨pid, v', pv, hpid, hv', hdata', hpar', hpv, hmem⟩ :=
          ih s2 s' hndrest h id he v2 hv2 (by rw [hdata2] ; exact ht)
        rw [hdata2] at hpid
        exact ⟨pid, v', pv, hpid, hv', by rw [hdata', hdata2], hpar', hpv, hmem⟩

theorem processNewComments_eq (store : Store) (L : List Comment) :
    processNewComments store L =
      match linkPass (dedupPass store L).1 (dedupPass store L).2 with
      | none => none
      | some s2 => some (s2, (dedupPass store L).2) := rfl

/-! ## Claim theorems: comment threading -/

/-- C2: whenever `processNewComments` returns normally, every newly added
comment of type REPLY ends with its `parent` field set to the id of its
parent comment, and that parent is present in the Seen-set with the reply
registered among its `replies`; and on an input containing a REPLY whose
parent is absent from the Seen-set and from the batch,
`processNewComments` fails with the null-dereference-equivalent outcome
(`none`) instead of returning normally. -/
theorem processNewComments_reply_linking :
    (∀ (store : Store) (L : List Comment) (s' : Store) (newIds : List Nat),
      processNewComments store L = some (s', newIds) →
      ∀ id ∈ newIds, ∀ c', mapGet s' id = some c' →
        c'.data.type = COMMENT_TYPE_REPLY →
        ∃ pid, c'.data.parentId = some pid ∧ c'.parent = some pid ∧
          ∃ pv, mapGet s' pid = some pv ∧ id ∈ pv.replies) ∧
    processNewComments [] [⟨2, some 1, COMMENT_TYPE_REPLY⟩] = none := by
  constructor
  · intro store L s' newIds hout id hid c' hc' ht
    rw [processNewComments_eq] at hout
    cases hlp : linkPass (dedupPass store L).1 (dedupPass store L).2 with
    | none => rw [hlp] at hout ; simp at hout
    | some s2 =>
      rw [hlp] at hout
      dsimp only at hout
      injection hout with hpair
      injection hpair with h1 h2
      subst h1
      subst h2
      obtain ⟨v, hv⟩ := dedup_new_present L store id hid
      obtain ⟨v'', hv'', hdata'', _, _⟩ := linkPass_preserves _ _ _ hlp id v hv
      have hev : c' = v'' := by
        rw [hv''] at hc'
        injection hc' with hh
        exact hh.symm
      have htv : v.data.type = COMMENT_TYPE_REPLY := by
        rw [← hdata'', ← hev]
        exact ht
      obtain ⟨pid, v', pv, hpid, hv', hdata', hpar', hpv, hmem⟩ :=
        linkPass_link _ _ _ (dedup_nodup L store) hlp id hid v hv htv
      have hev' : c' = v' := by
        rw [hv'] at hc'
        injection hc' with hh
        exact hh.symm
      refine ⟨pid, ?_, ?_, pv, hpv, hmem⟩
      · rw [hev', hdata']
        exact hpid
      · rw [hev']
        exact hpar'
  · decide

/-- Witness for C2: the root-and-reply example run; the reply with id 2
ends linked to parent id 1. -/
theorem processNewComments_reply_linking_witness :
    (processNewComments [] [⟨1, none, "ROOT"⟩, ⟨2, some 1, COMMENT_TYPE_REPLY⟩] =
      some ([(1, ⟨⟨1, none, "ROOT"⟩, [2], none⟩),
             (2, ⟨⟨2, some 1, COMMENT_TYPE_REPLY⟩, [], some 1⟩)], [1, 2]) ∧
     (2 : Nat) ∈ [1, 2] ∧
     mapGet [(1, ⟨⟨1, none, "ROOT"⟩, [2], none⟩),
             (2, ⟨⟨2, some 1, COMMENT_TYPE_REPLY⟩, [], some 1⟩)] 2 =
       some ⟨⟨2, some 1, COMMENT_TYPE_REPLY⟩, [], some 1⟩ ∧
     (⟨⟨2, some 1, COMMENT_TYPE_REPLY⟩, [], some 1⟩ :
       StoredComment).data.type = COMMENT_TYPE_REPLY) ∧
    ∃ pid, (⟨⟨2, some 1, COMMENT_TYPE_REPLY⟩, [], some 1⟩ :
        StoredComment).data.parentId = some pid ∧
      (⟨⟨2, some 1, COMMENT_TYPE_REPLY⟩, [], some 1⟩ :
        StoredComment).parent = some pid ∧
      ∃ pv, mapGet [(1, ⟨⟨1, none, "ROOT"⟩, [2], none⟩),
          (2, ⟨⟨2, some 1, COMMENT_TYPE_REPLY⟩, [], some 1⟩)] pid = some pv ∧
        (2 : Nat) ∈ pv.replies := by
  refine ⟨⟨by decide, by decide, by decide, by decide⟩, ?_⟩
  exact processNewComments_reply_linking.1 []
    [⟨1, none, "ROOT"⟩, ⟨2, some 1, COMMENT_TYPE_REPLY⟩]
    [(1, ⟨⟨1, none, "ROOT"⟩, [2], none⟩),
     (2, ⟨⟨2, some 1, COMMENT_TYPE_REPLY⟩, [], some 1⟩)] [1, 2]
    (by decide) 2 (by decide) ⟨⟨2, some 1, COMMENT_TYPE_REPLY⟩, [], some 1⟩
    (by decide) (by decide)

/-- C3: `processNewComments` is idempotent under deduplication: if a call
on batch `L` returns normally, then a second call on the same batch
returns an empty newly-added sequence and leaves the Seen-set (and with
it every comment's `replies` and `parent` fields) unchanged. -/
theorem processNewComments_idempotent (store : Store) (L : List Comment)
    (s' : Store) (newIds : List Nat)
    (h : processNewComments store L = some (s', newIds)) :
    processNewComments s' L = some (s', []) := by
  rw [processNewComments_eq] at h
  cases hlp : linkPass (dedupPass store L).1 (dedupPass store L).2 with
  | none => rw [hlp] at h ; simp at h
  | some s2 =>
    rw [hlp] at h
    dsimp only at h
    injection h with hpair
    injection hpair with h1 h2
    subst h1
    subst h2
    have hall : ∀ c ∈ L, (mapGet s2 c.id).isSome := by
      intro c hc
      obtain ⟨v, hv⟩ := Option.isSome_iff_exists.mp (dedup_mem_batch L store c hc)
      obtain ⟨v', hv', _, _, _⟩ := linkPass_preserves _ _ _ hlp c.id v hv
      rw [hv']
      rfl
    rw [processNewComments_eq, dedup_all_seen L s2 hall]
    rfl

/-- Witness for C3: running the root-and-reply example a second time adds
nothing and changes nothing. -/
theorem processNewComments_idempotent_witness :
    processNewComments [] [⟨1, none, "ROOT"⟩, ⟨2, some 1, COMMENT_TYPE_REPLY⟩] =
      some ([(1, ⟨⟨1, none, "ROOT"⟩, [2], none⟩),
             (2, ⟨⟨2, some 1, COMMENT_TYPE_REPLY⟩, [], some 1⟩)], [1, 2]) ∧
    processNewComments
      [(1, ⟨⟨1, none, "ROOT"⟩, [2], none⟩),
       (2, ⟨⟨2, some 1, COMMENT_TYPE_REPLY⟩, [], some 1⟩)]
      [⟨1, none, "ROOT"⟩, ⟨2, some 1, COMMENT_TYPE_REPLY⟩] =
      some ([(1, ⟨⟨1, none, "ROOT"⟩, [2], none⟩),
             (2, ⟨⟨2, some 1, COMMENT_TYPE_REPLY⟩, [], some 1⟩)], []) := by
  refine ⟨by decide, ?_⟩
  exact processNewComments_idempotent []
    [⟨1, none, "ROOT"⟩, ⟨2, some 1, COMMENT_TYPE_REPLY⟩]
    [(1, ⟨⟨1, none, "ROOT"⟩, [2], none⟩),
     (2, ⟨⟨2, some 1, COMMENT_TYPE_REPLY⟩, [], some 1⟩)] [1, 2] (by decide)

/-- C4: ingesting, from an empty Seen-set, a root comment with id 1
followed by a reply with id 2 and parent id 1 in one call yields comment
1 with `replies = [2]` and comment 2 with its `parent` back-reference set
to comment 1 (in the heap model, references are ids into the Seen-set). -/
theorem processNewComments_root_reply_example :
    processNewComments [] [⟨1, none, "ROOT"⟩, ⟨2, some 1, COMMENT_TYPE_REPLY⟩] =
      some ([(1, ⟨⟨1, none, "ROOT"⟩, [2], none⟩),
             (2, ⟨⟨2, some 1, COMMENT_TYPE_REPLY⟩, [], some 1⟩)], [1, 2]) ∧
    mapGet [(1, ⟨⟨1, none, "ROOT"⟩, [2], none⟩),
            (2, ⟨⟨2, some 1, COMMENT_TYPE_REPLY⟩, [], some 1⟩)] 1 =
      some ⟨⟨1, none, "ROOT"⟩, [2], none⟩ ∧
    mapGet [(1, ⟨⟨1, none, "ROOT"⟩, [2], none⟩),
            (2, ⟨⟨2, some 1, COMMENT_TYPE_REPLY⟩, [], some 1⟩)] 2 =
      some ⟨⟨2, some 1, COMMENT_TYPE_REPLY⟩, [], some 1⟩ := by
  refine ⟨by decide, by decide, by decide⟩

/-- C10: in a single returning call, a REPLY that appears earlier in the
batch than its parent, with both comments new, is still linked correctly:
the parent's `replies` contains the reply and the reply's `parent` field
is set, because the deduplication pass registers every new comment in the
Seen-set before the linking pass resolves any parent id. -/
theorem processNewComments_reply_before_parent (store : Store)
    (L1 L2 L3 : List Comment) (r p : Comment) (s' : Store) (newIds : List Nat)
    (ht : r.type = COMMENT_TYPE_REPLY) (hpid : r.parentId = some p.id)
    (hrnew : mapGet store r.id = none) (hpnew : mapGet store p.id = none)
    (hr1 : ∀ d ∈ L1, d.id ≠ r.id)
    (hp1 : ∀ d ∈ L1 ++ r :: L2, d.id ≠ p.id)
    (h : processNewComments store (L1 ++ r :: (L2 ++ p :: L3)) =
      some (s', newIds)) :
    ∃ rc pc, mapGet s' r.id = some rc ∧ rc.data = r ∧ rc.parent = some p.id ∧
      mapGet s' p.id = some pc ∧ pc.data = p ∧ r.id ∈ pc.replies := by
  rw [processNewComments_eq] at h
  cases hlp : linkPass (dedupPass store (L1 ++ r :: (L2 ++ p :: L3))).1
      (dedupPass store (L1 ++ r :: (L2 ++ p :: L3))).2 with
  | none => rw [hlp] at h ; simp at h
  | some s2 =>
    rw [hlp] at h
    dsimp only at h
    injection h with hpair
    injection hpair with h1 h2
    subst h1
    subst h2
    obtain ⟨hrget, hrmem⟩ :=
      dedup_first_occurrence L1 r (L2 ++ p :: L3) store hrnew hr1
    have hlist : L1 ++ r :: (L2 ++ p :: L3) = (L1 ++ r :: L2) ++ p :: L3 := by
      simp
    obtain ⟨hpget, hpmem⟩ := by
      have := dedup_first_occurrence (L1 ++ r :: L2) p L3 store hpnew hp1
      rw [← hlist] at this
      exact this
    have htv : (⟨r, [], none⟩ : StoredComment).data.type = COMMENT_TYPE_REPLY := ht
    obtain ⟨pid, v', pv, hpid', hv', hdata', hpar', hpv, hmem⟩ :=
      linkPass_link _ _ _ (dedup_nodup _ store) hlp r.id hrmem ⟨r, [], none⟩ hrget htv
    have hpide : pid = p.id := by
      have : r.parentId = some pid := hpid'
      rw [hpid] at this
      injection this with hh
      exact hh.symm
    subst hpide
    obtain ⟨pv', hpv', hpvdata', _, _⟩ :=
      linkPass_preserves _ _ _ hlp p.id ⟨p, [], none⟩ hpget
    have hpve : pv = pv' := by
      rw [hpv'] at hpv
      injection hpv with hh
      exact hh.symm
    exact ⟨v', pv, hv', hdata', hpar', by rw [hpve] ; exact hpv',
      by rw [hpve, hpvdata'], hmem⟩

/-- Witness for C10: the reply with id 2 precedes its parent with id 1 in
the same batch; the call succeeds and links them. -/
theorem processNewComments_reply_before_parent_witness :
    ((⟨2, some 1, COMMENT_TYPE_REPLY⟩ : Comment).type = COMMENT_TYPE_REPLY ∧
     (⟨2, some 1, COMMENT_TYPE_REPLY⟩ : Comment).parentId =
       some (⟨1, none, "ROOT"⟩ : Comment).id ∧
     mapGet [] (⟨2, some 1, COMMENT_TYPE_REPLY⟩ : Comment).id = none ∧
     mapGet [] (⟨1, none, "ROOT"⟩ : Comment).id = none ∧
     processNewComments []
       ([] ++ (⟨2, some 1, COMMENT_TYPE_REPLY⟩ : Comment) ::
         ([] ++ (⟨1, none, "ROOT"⟩ : Comment) :: [])) =
       some ([(2, ⟨⟨2, some 1, COMMENT_TYPE_REPLY⟩, [], some 1⟩),
              (1, ⟨⟨1, none, "ROOT"⟩, [2], none⟩)], [2, 1])) ∧
    ∃ rc pc,
      mapGet [(2, ⟨⟨2, some 1, COMMENT_TYPE_REPLY⟩, [], some 1⟩),
              (1, ⟨⟨1, none, "ROOT"⟩, [2], none⟩)]
          (⟨2, some 1, COMMENT_TYPE_REPLY⟩ : Comment).id = some rc ∧
        rc.data = ⟨2, some 1, COMMENT_TYPE_REPLY⟩ ∧
        rc.parent = some (⟨1, none, "ROOT"⟩ : Comment).id ∧
        mapGet [(2, ⟨⟨2, some 1, COMMENT_TYPE_REPLY⟩, [], some 1⟩),
                (1, ⟨⟨1, none, "ROOT"⟩, [2], none⟩)]
          (⟨1, none, "ROOT"⟩ : Comment).id = some pc ∧
        pc.data = ⟨1, none, "ROOT"⟩ ∧
        (⟨2, some 1, COMMENT_TYPE_REPLY⟩ : Comment).id ∈ pc.replies := by
  refine ⟨⟨by decide, by decide, by decide, by decide, by decide⟩, ?_⟩
  exact processNewComments_reply_before_parent [] [] [] []
    ⟨2, some 1, COMMENT_TYPE_REPLY⟩ ⟨1, none, "ROOT"⟩
    [(2, ⟨⟨2, some 1, COMMENT_TYPE_REPLY⟩, [], some 1⟩),
     (1, ⟨⟨1, none, "ROOT"⟩, [2], none⟩)] [2, 1]
    (by decide) (by decide) (by decide) (by decide)
    (by intro d hd ; cases hd) (by intro d hd ; simp at hd ; rw [hd] ; decide)
    (by decide)
